import Mathlib

/-!
Verification of `calibrate_x_positions.py` (rust-harp repository).

The program is an interactive calibration utility: it records fractional
mouse positions into two lists (`left_bounds`, `right_bounds`), driven by
key events (space = confirm, BackSpace = undo, Return = next phase), and on
completion averages the paired bounds and patches a Rust source file.

We embed the collection state machine (`on_key_press`), the averaging step
and the file-patching step (`calculate_and_update_rust_file`) as pure Lean
functions.  Mouse fractions (Python floats) are modelled as rationals: the
claims under study are structural (list order, lengths, exact midpoint
formula, digit counts of the printed representation), not about binary
rounding.
-/

set_option autoImplicit false

namespace CalibrateX

/-- The two collection phases.  In the Python source the phase is encoded by
`self.current_list` being (reference-)equal to `self.left_bounds` or
`self.right_bounds`. -/
inductive Phase where
  | collectingLeft
  | collectingRight
deriving DecidableEq, Repr

/-- The mutable session state of `CalibrationUtility`: the two bound lists
and the current phase.  The transient `mouse_x_percentage` is passed as the
payload of a confirm event instead of being stored, since key handlers only
read it. -/
structure SessionState where
  left : List ℚ
  right : List ℚ
  phase : Phase
deriving DecidableEq, Repr

/-- Key events handled by `on_key_press`: `confirm x` is a space press with
current mouse fraction `x`, `undo` is BackSpace, `nextPhase` is Return. -/
inductive Event where
  | confirm (x : ℚ)
  | undo
  | nextPhase
deriving DecidableEq, Repr

/-- Embedding of `CalibrationUtility.on_key_press`.  Returns the new state
together with a flag that is `true` exactly when this event triggered the
completion path (`calculate_and_update_rust_file` followed by
`master.quit()`), i.e. a right-bound confirm that made the lengths equal.

Source, branch by branch:
* space, `current_list is left_bounds`: `self.current_list.append(...)`;
* space, `current_list is right_bounds and len(right) < len(left)`:
  `self.current_list.insert(0, ...)`, then if `len(right) == len(left)`
  invoke the patcher and quit;
* space otherwise: fall through (no-op);
* BackSpace: `if self.current_list and len(self.current_list) > 0:
  self.current_list.pop()` — Python `pop()` removes the LAST element of the
  current list in both phases;
* Return: `if current_list is left_bounds: current_list = right_bounds`. -/
def on_key_press (s : SessionState) (e : Event) : SessionState × Bool :=
  match e with
  | .confirm x =>
    match s.phase with
    | .collectingLeft => ({ s with left := s.left ++ [x] }, false)
    | .collectingRight =>
      if s.right.length < s.left.length then
        let s' := { s with right := x :: s.right }
        (s', s'.right.length == s'.left.length)
      else
        (s, false)
  | .undo =>
    match s.phase with
    | .collectingLeft =>
      if 0 < s.left.length then ({ s with left := s.left.dropLast }, false)
      else (s, false)
    | .collectingRight =>
      if 0 < s.right.length then ({ s with right := s.right.dropLast }, false)
      else (s, false)
  | .nextPhase =>
    match s.phase with
    | .collectingLeft => ({ s with phase := .collectingRight }, false)
    | .collectingRight => (s, false)

/-- The state reached after delivering a list of key events in order. -/
def run (s : SessionState) (evs : List Event) : SessionState :=
  evs.foldl (fun t e => (on_key_press t e).1) s

/-- The initial state set up in `__init__`: both lists empty, collecting
left bounds. -/
def init : SessionState := ⟨[], [], .collectingLeft⟩

/-- Embedding of the averaging loop in `calculate_and_update_rust_file`:
`for left, right in zip(self.left_bounds, self.right_bounds):
   final_x_positions.append((left + right) / 2.0)`. -/
def final_x_positions (left right : List ℚ) : List ℚ :=
  (left.zip right).map fun lr => (lr.1 + lr.2) / 2

/-- The collection invariant: while still collecting left bounds nothing has
been put into `right_bounds`, and `right_bounds` never outgrows
`left_bounds`. -/
def Inv (s : SessionState) : Prop :=
  (s.phase = .collectingLeft → s.right = []) ∧ s.right.length ≤ s.left.length

/-- The decimal exponent of a positive rational `q`: the unique `e` with
`10^e ≤ q < 10^(e+1)`, computed from the digit counts of numerator and
denominator.  This models how CPython chooses the exponent of the `e`
format. -/
def decExp (q : ℚ) : ℤ :=
  let a : ℤ := Nat.log 10 q.num.toNat
  let b : ℤ := Nat.log 10 q.den
  if (10 : ℚ) ^ (a - b) ≤ q then a - b else a - b - 1

/-- The value `q` scaled so that its integer part carries `p + 1` decimal
digits. -/
def sciScaled (p : ℕ) (q : ℚ) : ℚ := q * (10 : ℚ) ^ ((p : ℤ) - decExp q)

/-- The `p + 1`-digit mantissa of `q` under the format `.{p}e`, rounded to
nearest (model of CPython rounding of the shortest-exponent mantissa). -/
def sciMantissa (p : ℕ) (q : ℚ) : ℕ := (⌊sciScaled p q + 1/2⌋).toNat

/-- The mantissa after renormalisation: rounding can carry `9.99…` over to
`10.0…`, in which case the printed mantissa drops back to `1.00…` and the
exponent increases by one. -/
def sciNormMantissa (p : ℕ) (q : ℚ) : ℕ :=
  if sciMantissa p q = 10 ^ (p + 1) then 10 ^ p else sciMantissa p q

/-- The printed exponent, after renormalisation. -/
def sciExp (p : ℕ) (q : ℚ) : ℤ :=
  if sciMantissa p q = 10 ^ (p + 1) then decExp q + 1 else decExp q

/-- The mantissa digits of the printed representation (little-endian). -/
def sciDigits (p : ℕ) (q : ℚ) : List ℕ := Nat.digits 10 (sciNormMantissa p q)

/-- The exponent part `±EE` of the `e` format (sign, two-digit padded). -/
def expSuffix (e : ℤ) : String :=
  (if e < 0 then "-" else "+")
    ++ (if e.natAbs < 10 then "0" else "")
    ++ toString e.natAbs

/-- Scientific rendering `d.ddd…de±EE` of a positive rational with `p`
digits after the decimal point. -/
def fmtEPos (p : ℕ) (q : ℚ) : String :=
  match (sciDigits p q).reverse.map Nat.digitChar with
  | [] => "0"
  | d :: rest =>
    String.mk [d] ++ "." ++ String.mk rest ++ "e" ++ expSuffix (sciExp p q)

/-- Model of the Python format `f"{x:.{p}e}"` used by the source as
`{pos:.17e}` (array rendering) and `{self.mouse_x_percentage:.17e}`
(add/remove log lines): one mantissa digit before the decimal point, `p`
after it, then the exponent. -/
def fmt_e (p : ℕ) (q : ℚ) : String :=
  if q = 0 then "0." ++ String.mk (List.replicate p '0') ++ "e+00"
  else if q < 0 then "-" ++ fmtEPos p (-q)
  else fmtEPos p q

/-- Embedding of the rendering loop of `calculate_and_update_rust_file`:
`rust_array_string = "const UNSCALED_RELATIVE_X_POSITIONS: &[f32] = &[\n"`,
then one line `"    {pos:.17e},\n"` per averaged value, then `"];"`. -/
def rust_array_string (final : List ℚ) : String :=
  "const UNSCALED_RELATIVE_X_POSITIONS: &[f32] = &[\n"
    ++ String.join (final.map fun pos => "    " ++ fmt_e 17 pos ++ ",\n")
    ++ "];"

/-- The literal head of the regex
`^const UNSCALED_RELATIVE_X_POSITIONS: \&\[f32\] = \&\[(.*?)\];`:
everything before the non-greedy group. -/
def headerChars : List Char :=
  "const UNSCALED_RELATIVE_X_POSITIONS: &[f32] = &[".data

/-- Split a character list at the first occurrence of the closing literal
`];` of the regex, returning the part before it and the part after it.
This is the non-greedy `(.*?)\];` of the pattern (with `DOTALL`, any
character including newlines may occur before the close). -/
def splitAtClose : List Char → Option (List Char × List Char)
  | [] => none
  | ']' :: ';' :: rest => some ([], rest)
  | c :: cs =>
    match splitAtClose cs with
    | some (pre, post) => some (c :: pre, post)
    | none => none

/-- Model of `re.search` for the declaration pattern with
`MULTILINE | DOTALL`:
find the first position that starts a line (`lineStart` tracks the
`MULTILINE` anchor `^`) and carries the literal header, then take the
shortest body terminated by `];`.  Returns `(prefix, group 1, suffix)` of
the first match, or `none` when the pattern does not occur.  (If the first
header occurrence has no `];` after it, no later occurrence has either, so
answering `none` there agrees with `re.search`.) -/
def findBlock : Bool → List Char → Option (List Char × List Char × List Char)
  | lineStart, [] =>
    if lineStart && headerChars.isPrefixOf [] then
      match splitAtClose (([] : List Char).drop headerChars.length) with
      | some (body, rest) => some ([], body, rest)
      | none => none
    else none
  | lineStart, c :: cs =>
    if lineStart && headerChars.isPrefixOf (c :: cs) then
      match splitAtClose ((c :: cs).drop headerChars.length) with
      | some (body, rest) => some ([], body, rest)
      | none => none
    else
      match findBlock (c == '\n') cs with
      | some r => some (c :: r.1, r.2.1, r.2.2)
      | none => none

/-- Model of `re.sub(array_pattern, rust_array_string, original_content,
count=1)` guarded by the preceding `re.search`: replace the first match of the
pattern, or `none` when the pattern does not occur (the replacement string
contains no backslashes, so `re.sub` template expansion is plain
substitution). -/
def replaceArrayBlock (content repl : String) : Option String :=
  match findBlock true content.data with
  | some r => some (String.mk (r.1 ++ repl.data ++ r.2.2))
  | none => none

/-- Embedding of `calculate_and_update_rust_file`, with the target file's
current text passed in place of the `open(...).read()` and the resulting
write modelled by the returned value: mismatched lengths and a missing
declaration block are the two reported error paths that abort before any
write. -/
def calculate_and_update_rust_file (left right : List ℚ)
    (original_content : String) : Except String String :=
  if left.length ≠ right.length then
    .error "Error: Mismatched number of bounds collected."
  else
    match replaceArrayBlock original_content
        (rust_array_string (final_x_positions left right)) with
    | some newContent => .ok newContent
    | none => .error "Error: UNSCALED_RELATIVE_X_POSITIONS block not found in src/main.rs. Please update manually."

/-- The content of the target file after the patcher runs: on either error
path the function returns before `open(rust_file_path, "w")`, so the file
keeps its original bytes. -/
def written_file (left right : List ℚ) (original_content : String) : String :=
  match calculate_and_update_rust_file left right original_content with
  | .ok newContent => newContent
  | .error _ => original_content

theorem run_nil (s : SessionState) : run s [] = s := rfl

theorem run_cons (s : SessionState) (e : Event) (evs : List Event) :
    run s (e :: evs) = run (on_key_press s e).1 evs := rfl

/-- Any single event keeps the phase at `collectingRight` and leaves
`left_bounds` untouched once the phase has switched: the only write to
`left_bounds` is in the space-handler branch guarded by
`current_list is left_bounds`, and the Return handler only switches away
from the left phase. -/
lemma phase_right_preserved (s : SessionState) (e : Event)
    (h : s.phase = .collectingRight) :
    (on_key_press s e).1.phase = .collectingRight ∧
      (on_key_press s e).1.left = s.left := by
  rcases e with x | _ | _ <;> simp [on_key_press, h] <;> split <;> simp [h]

lemma run_phase_right (s : SessionState) (evs : List Event)
    (h : s.phase = .collectingRight) :
    (run s evs).phase = .collectingRight ∧ (run s evs).left = s.left := by
  induction evs generalizing s with
  | nil => exact ⟨h, rfl⟩
  | cons e evs ih =>
    rw [run_cons]
    obtain ⟨hp, hl⟩ := phase_right_preserved s e h
    obtain ⟨hp', hl'⟩ := ih _ hp
    exact ⟨hp', hl'.trans hl⟩

lemma inv_init : Inv init := ⟨fun _ => rfl, Nat.le_refl 0⟩

lemma inv_step (s : SessionState) (e : Event) (h : Inv s) :
    Inv (on_key_press s e).1 := by
  obtain ⟨h1, h2⟩ := h
  rcases e with x | _ | _
  · rcases hp : s.phase
    · simp only [on_key_press, hp]
      exact ⟨fun _ => h1 hp, by simp; omega⟩
    · simp only [on_key_press, hp]
      split
      · rename_i hlt
        exact ⟨by simp [hp], by simp; omega⟩
      · exact ⟨h1, h2⟩
  · rcases hp : s.phase
    · simp only [on_key_press, hp]
      split
      · exact ⟨fun _ => h1 hp, by simp [h1 hp]⟩
      · exact ⟨h1, h2⟩
    · simp only [on_key_press, hp]
      split
      · refine ⟨by simp, ?_⟩
        simp only [List.length_dropLast]
        omega
      · exact ⟨h1, h2⟩
  · rcases hp : s.phase
    · simp only [on_key_press, hp]
      exact ⟨by simp, h2⟩
    · simp only [on_key_press, hp]
      exact ⟨h1, h2⟩

lemma inv_run (s : SessionState) (evs : List Event) (h : Inv s) :
    Inv (run s evs) := by
  induction evs generalizing s with
  | nil => exact h
  | cons e evs ih => rw [run_cons]; exact ih _ (inv_step s e h)

/-- Claim C4: in every state reachable from the initial state (empty lists,
collecting-left phase) by any sequence of Confirm, Undo and Next-phase
events, `right_bounds` never gets longer than `left_bounds`. -/
theorem right_length_le_left_length (evs : List Event) :
    (run init evs).right.length ≤ (run init evs).left.length :=
  (inv_run init evs inv_init).2

/-- Claim C5: in the collecting-right phase with `right_bounds` already as
long as `left_bounds`, a Confirm (space) event is a complete no-op: the
guard `len(right_bounds) < len(left_bounds)` fails and neither list nor the
phase changes, and the patcher is not invoked. -/
theorem confirm_when_right_full_noop (s : SessionState) (x : ℚ)
    (h1 : s.phase = .collectingRight) (h2 : s.right.length = s.left.length) :
    on_key_press s (.confirm x) = (s, false) := by
  simp [on_key_press, h1, h2]

/-- Witness for `confirm_when_right_full_noop` at a concrete state. -/
theorem confirm_when_right_full_noop_witness :
    (⟨[(1:ℚ)/2], [(1:ℚ)/4], .collectingRight⟩ : SessionState).phase
        = .collectingRight ∧
    (⟨[(1:ℚ)/2], [(1:ℚ)/4], .collectingRight⟩ : SessionState).right.length
        = (⟨[(1:ℚ)/2], [(1:ℚ)/4], .collectingRight⟩ : SessionState).left.length ∧
    on_key_press ⟨[(1:ℚ)/2], [(1:ℚ)/4], .collectingRight⟩ (.confirm (3/4))
        = (⟨[(1:ℚ)/2], [(1:ℚ)/4], .collectingRight⟩, false) :=
  ⟨rfl, rfl, confirm_when_right_full_noop _ _ rfl rfl⟩

/-- Claim C6: the phase only ever advances forward once.  From any state in
the collecting-right phase, a Next-phase (Return) event is a no-op, and no
event sequence whatsoever brings the session back to the collecting-left
phase. -/
theorem phase_only_advances (s : SessionState)
    (h : s.phase = .collectingRight) :
    on_key_press s .nextPhase = (s, false) ∧
      ∀ evs : List Event, (run s evs).phase = .collectingRight :=
  ⟨by simp [on_key_press, h], fun evs => (run_phase_right s evs h).1⟩

/-- Witness for `phase_only_advances` at a concrete state and event list. -/
theorem phase_only_advances_witness :
    (⟨[(1:ℚ)/2], [], .collectingRight⟩ : SessionState).phase
        = .collectingRight ∧
    (run ⟨[(1:ℚ)/2], [], .collectingRight⟩
        [.undo, .nextPhase, .confirm (1/3)]).phase = .collectingRight :=
  ⟨rfl, (phase_only_advances _ rfl).2 _⟩

/-- Claim C9: once the session is in the collecting-right phase,
`left_bounds` is never modified again by any sequence of events. -/
theorem left_bounds_frozen (s : SessionState)
    (h : s.phase = .collectingRight) (evs : List Event) :
    (run s evs).left = s.left :=
  (run_phase_right s evs h).2

/-- Witness for `left_bounds_frozen` at a concrete state and event list. -/
theorem left_bounds_frozen_witness :
    (⟨[(1:ℚ)/2], [], .collectingRight⟩ : SessionState).phase
        = .collectingRight ∧
    (run ⟨[(1:ℚ)/2], [], .collectingRight⟩
        [.confirm (1/3), .undo, .confirm (1/4)]).left = [(1:ℚ)/2] :=
  ⟨rfl, left_bounds_frozen _ rfl _⟩

/-- Claim C1: on equal-length bound lists the averaging loop produces a list
of the same length whose `i`-th entry is the midpoint `(L[i] + R[i]) / 2`. -/
theorem final_x_positions_spec (L R : List ℚ) (h : L.length = R.length) :
    (final_x_positions L R).length = L.length ∧
    ∀ (i : ℕ) (hi : i < (final_x_positions L R).length)
      (hL : i < L.length) (hR : i < R.length),
      (final_x_positions L R).get ⟨i, hi⟩
        = (L.get ⟨i, hL⟩ + R.get ⟨i, hR⟩) / 2 := by
  constructor
  · simp [final_x_positions, h]
  · intro i hi hL hR
    simp [final_x_positions]

lemma final_x_positions_demo_len_pos :
    0 < (final_x_positions [(1:ℚ)/10, 1/2] [(7:ℚ)/10, 3/10]).length := by
  norm_num [final_x_positions]

/-- Witness for `final_x_positions_spec` on the spec's literal scenario
`L = [0.1, 0.5]`, `R = [0.7, 0.3]`. -/
theorem final_x_positions_spec_witness :
    ([(1:ℚ)/10, 1/2] : List ℚ).length = ([(7:ℚ)/10, 3/10] : List ℚ).length ∧
    (final_x_positions [(1:ℚ)/10, 1/2] [(7:ℚ)/10, 3/10]).length
      = ([(1:ℚ)/10, 1/2] : List ℚ).length ∧
    (final_x_positions [(1:ℚ)/10, 1/2] [(7:ℚ)/10, 3/10]).get
        ⟨0, final_x_positions_demo_len_pos⟩
      = (((1:ℚ)/10) + 7/10) / 2 :=
  ⟨rfl, (final_x_positions_spec [(1:ℚ)/10, 1/2] [(7:ℚ)/10, 3/10] rfl).1,
    (final_x_positions_spec [(1:ℚ)/10, 1/2] [(7:ℚ)/10, 3/10] rfl).2 0
      final_x_positions_demo_len_pos (by norm_num) (by norm_num)⟩

/-- After `k` right-phase confirms the collected values sit in reverse
confirmation order in front of the previous `right_bounds`, provided there
was room for all of them; `left_bounds` is untouched. -/
lemma confirm_run_right (s : SessionState) (xs : List ℚ)
    (h1 : s.phase = .collectingRight)
    (h2 : s.right.length + xs.length ≤ s.left.length) :
    (run s (xs.map Event.confirm)).right = xs.reverse ++ s.right ∧
    (run s (xs.map Event.confirm)).left = s.left := by
  induction xs generalizing s with
  | nil => simp [run]
  | cons x xs ih =>
    have hlt : s.right.length < s.left.length := by
      simp only [List.length_cons] at h2; omega
    have hstep : (on_key_press s (.confirm x)).1
        = { s with right := x :: s.right } := by
      simp [on_key_press, h1, hlt]
    rw [List.map_cons, run_cons, hstep]
    obtain ⟨hr, hl⟩ := ih { s with right := x :: s.right } h1
      (by simp only [List.length_cons] at h2 ⊢; omega)
    refine ⟨?_, hl⟩
    rw [hr]; simp

/-- Claim C3 (amended): insertion-at-head builds the right-bounds list as
the REVERSE of the order in which the samples were confirmed, with one entry
per confirm.  Hence if the samples are confirmed in decreasing (right-to-left
pointer) order, the resulting list is in increasing (left-to-right) order —
confirming in increasing order instead produces a decreasing list. -/
theorem right_bounds_reverse_of_confirms (s : SessionState) (xs : List ℚ)
    (h1 : s.phase = .collectingRight) (h2 : s.right = [])
    (h3 : xs.length ≤ s.left.length) :
    (run s (xs.map Event.confirm)).right = xs.reverse ∧
    (run s (xs.map Event.confirm)).right.length = xs.length ∧
    (List.Chain' (· > ·) xs →
      List.Chain' (· < ·) (run s (xs.map Event.confirm)).right) := by
  have h2' : s.right.length + xs.length ≤ s.left.length := by
    rw [h2]; simpa using h3
  obtain ⟨hr, -⟩ := confirm_run_right s xs h1 h2'
  rw [h2, List.append_nil] at hr
  refine ⟨hr, by rw [hr]; simp, fun hc => ?_⟩
  rw [hr, List.chain'_reverse]
  exact hc

/-- Counterexample to claim C3 as stated: with `L = [0.1, 0.5]`, confirming
right bounds `0.3` then `0.7` — increasing, left-to-right order — yields
`right_bounds = [0.7, 0.3]`, which is NOT in increasing order. -/
theorem right_bounds_increasing_counterexample :
    ((3:ℚ)/10 < 7/10) ∧
    (run init [.confirm (1/10), .confirm (1/2), .nextPhase,
        .confirm (3/10), .confirm (7/10)]).right = [7/10, 3/10] ∧
    ¬ List.Chain' (· < ·)
        (run init [.confirm (1/10), .confirm (1/2), .nextPhase,
            .confirm (3/10), .confirm (7/10)]).right := by
  have hr : (run init [.confirm (1/10), .confirm (1/2), .nextPhase,
      .confirm (3/10), .confirm (7/10)]).right = [(7:ℚ)/10, 3/10] := by
    norm_num [run, on_key_press, init]
  refine ⟨by norm_num, hr, ?_⟩
  rw [hr]
  intro hc
  rcases hc with _ | ⟨hlt, -⟩
  norm_num at hlt

/-- Witness for `right_bounds_reverse_of_confirms`: confirming `0.7` then
`0.3` (decreasing order) with `L = [0.1, 0.5]` gives the increasing list
`[0.3, 0.7]`. -/
theorem right_bounds_reverse_witness :
    (⟨[(1:ℚ)/10, 1/2], [], .collectingRight⟩ : SessionState).phase
        = .collectingRight ∧
    (⟨[(1:ℚ)/10, 1/2], [], .collectingRight⟩ : SessionState).right = [] ∧
    ([(7:ℚ)/10, 3/10] : List ℚ).length
        ≤ (⟨[(1:ℚ)/10, 1/2], [], .collectingRight⟩ : SessionState).left.length ∧
    (run ⟨[(1:ℚ)/10, 1/2], [], .collectingRight⟩
        ([(7:ℚ)/10, 3/10].map Event.confirm)).right = [(3:ℚ)/10, 7/10] :=
  ⟨rfl, rfl, by norm_num,
    (right_bounds_reverse_of_confirms _ _ rfl rfl (by norm_num)).1⟩

/-- Claim C2 evaluation at the failing input: collect three left bounds,
switch phase, confirm right bounds `0.25` then `0.75` (so
`right_bounds = [0.75, 0.25]`), then press Undo.  Python's `pop()` removes
the LAST element `0.25` — the oldest right sample — leaving `[0.75]`,
whereas undoing the immediately preceding Confirm would have to remove the
head `0.75` and restore `[0.25]`. -/
theorem undo_after_right_confirm_eval :
    (run init [.confirm (1/10), .confirm (1/5), .confirm (3/10), .nextPhase,
        .confirm (1/4)]).right = [1/4] ∧
    (run init [.confirm (1/10), .confirm (1/5), .confirm (3/10), .nextPhase,
        .confirm (1/4), .confirm (3/4)]).right = [3/4, 1/4] ∧
    (run init [.confirm (1/10), .confirm (1/5), .confirm (3/10), .nextPhase,
        .confirm (1/4), .confirm (3/4), .undo]).right = [3/4] ∧
    (run init [.confirm (1/10), .confirm (1/5), .confirm (3/10), .nextPhase,
        .confirm (1/4), .confirm (3/4), .undo]).right
      ≠ (run init [.confirm (1/10), .confirm (1/5), .confirm (3/10),
          .nextPhase, .confirm (1/4)]).right := by
  refine ⟨?_, ?_, ?_, ?_⟩ <;> norm_num [run, on_key_press, init]

/-- No event does anything from the stuck state (phase already switched with
nothing collected): the right-confirm guard `len(right) < len(left)` is
`0 < 0`, undo sees an empty list, Return is past the left phase. -/
lemma stuck_state_step (e : Event) :
    on_key_press ⟨[], [], .collectingRight⟩ e
      = (⟨[], [], .collectingRight⟩, false) := by
  rcases e <;> simp [on_key_press]

lemma stuck_state_run (evs : List Event) :
    run ⟨[], [], .collectingRight⟩ evs = ⟨[], [], .collectingRight⟩ := by
  induction evs with
  | nil => rfl
  | cons e evs ih => rw [run_cons, stuck_state_step]; exact ih

/-- Claim C10: whenever an event actually triggers the patcher (flag `true`),
the post-state has `len(right) = len(left) > 0`, so the patcher's
mismatched-bounds error branch can never be taken from the interaction loop;
and if the phase is switched while `left_bounds` is empty, every later event
is a no-op and the patcher is never invoked. -/
theorem patcher_invocation_lengths (s : SessionState) (e : Event)
    (evs : List Event) (e2 : Event) :
    ((on_key_press s e).2 = true →
      (on_key_press s e).1.right.length = (on_key_press s e).1.left.length ∧
      0 < (on_key_press s e).1.right.length) ∧
    run ⟨[], [], .collectingRight⟩ evs = ⟨[], [], .collectingRight⟩ ∧
    (on_key_press (run ⟨[], [], .collectingRight⟩ evs) e2).2 = false := by
  refine ⟨?_, stuck_state_run evs, ?_⟩
  · intro hflag
    rcases e with x | _ | _
    · rcases hp : s.phase
      · simp [on_key_press, hp] at hflag
      · simp only [on_key_press, hp] at hflag ⊢
        split at hflag
        · rename_i hlt
          simp at hflag
          rw [if_pos hlt]
          simp only [List.length_cons]
          omega
        · simp at hflag
    · rcases hp : s.phase <;>
        simp only [on_key_press, hp, apply_ite, Prod.snd] at hflag <;>
        simp at hflag
    · rcases hp : s.phase <;> simp only [on_key_press, hp] at hflag <;>
        simp at hflag
  · rw [stuck_state_run, stuck_state_step]

/-- Witness for `patcher_invocation_lengths`: collecting one left bound,
switching phase and confirming one right bound triggers the patcher, and
the lengths are then equal and positive. -/
theorem patcher_invocation_lengths_witness :
    (on_key_press (run init [.confirm (1/2), .nextPhase])
        (.confirm (1/4))).2 = true ∧
    ((on_key_press (run init [.confirm (1/2), .nextPhase])
        (.confirm (1/4))).1.right.length
      = (on_key_press (run init [.confirm (1/2), .nextPhase])
          (.confirm (1/4))).1.left.length ∧
     0 < (on_key_press (run init [.confirm (1/2), .nextPhase])
        (.confirm (1/4))).1.right.length) :=
  ⟨by norm_num [run, on_key_press, init],
    (patcher_invocation_lengths (run init [.confirm (1/2), .nextPhase])
        (.confirm (1/4)) [] .undo).1
      (by norm_num [run, on_key_press, init])⟩

/-- Claim C7: when the target file's content contains no match of the
declaration pattern, the patcher reports the block-not-found error and
returns before the write, leaving the file byte-for-byte unchanged. -/
theorem block_not_found_leaves_file_unchanged (left right : List ℚ)
    (content : String) (hlen : left.length = right.length)
    (hfind : findBlock true content.data = none) :
    calculate_and_update_rust_file left right content
      = .error "Error: UNSCALED_RELATIVE_X_POSITIONS block not found in src/main.rs. Please update manually." ∧
    written_file left right content = content := by
  have hrep : replaceArrayBlock content
      (rust_array_string (final_x_positions left right)) = none := by
    simp [replaceArrayBlock, hfind]
  constructor
  · simp [calculate_and_update_rust_file, hlen, hrep]
  · simp [written_file, calculate_and_update_rust_file, hlen, hrep]

/-- Witness for `block_not_found_leaves_file_unchanged`: a file consisting
of `let x = 1;` has no declaration block; the patcher errors out and the
content survives unchanged. -/
theorem block_not_found_witness :
    ([(1:ℚ)/2] : List ℚ).length = ([(3:ℚ)/5] : List ℚ).length ∧
    findBlock true ("let x = 1;").data = none ∧
    written_file [(1:ℚ)/2] [(3:ℚ)/5] "let x = 1;" = "let x = 1;" :=
  ⟨rfl, rfl,
    (block_not_found_leaves_file_unchanged [(1:ℚ)/2] [(3:ℚ)/5]
      "let x = 1;" rfl rfl).2⟩

/-- The function `decExp` computes the true decimal exponent:
`10 ^ decExp q ≤ q < 10 ^ (decExp q + 1)` for positive `q`. -/
lemma decExp_spec (q : ℚ) (hq : 0 < q) :
    (10 : ℚ) ^ decExp q ≤ q ∧ q < (10 : ℚ) ^ (decExp q + 1) := by
  have hz : (10 : ℚ) ≠ 0 := by norm_num
  have hnum : 0 < q.num := Rat.num_pos.mpr hq
  set n : ℕ := q.num.toNat with hn
  set d : ℕ := q.den with hd
  have hn0 : n ≠ 0 := by
    rw [hn]
    intro hcon
    rw [Int.toNat_eq_zero] at hcon
    omega
  have hd0 : d ≠ 0 := by
    have := q.pos
    omega
  have hdq : (0:ℚ) < (d : ℚ) := by
    have := q.pos
    rw [hd]
    exact_mod_cast this
  have hqd : q * (d : ℚ) = (n : ℚ) := by
    have h2 : (q.num : ℚ) / (q.den : ℚ) = q := Rat.num_div_den q
    have h3 : ((n : ℤ) : ℚ) = ((q.num : ℤ) : ℚ) := by
      rw [hn, Int.toNat_of_nonneg hnum.le]
    calc q * (d:ℚ) = ((q.num : ℚ) / (q.den:ℚ)) * (q.den:ℚ) := by rw [h2, hd]
      _ = (q.num : ℚ) := div_mul_cancel₀ _ (by exact_mod_cast hd0)
      _ = (n : ℚ) := by exact_mod_cast h3.symm
  set a := Nat.log 10 n with ha
  set b := Nat.log 10 d with hb
  have hb1 : (10:ℕ) ^ a ≤ n := Nat.pow_log_le_self 10 hn0
  have hb2 : n < 10 ^ (a + 1) := Nat.lt_pow_succ_log_self (by norm_num) n
  have hb3 : (10:ℕ) ^ b ≤ d := Nat.pow_log_le_self 10 hd0
  have hb4 : d < 10 ^ (b + 1) := Nat.lt_pow_succ_log_self (by norm_num) d
  have hQ1 : (10:ℚ) ^ (a:ℤ) ≤ (n:ℚ) := by
    rw [zpow_natCast]; exact_mod_cast hb1
  have hQ2 : (n:ℚ) < (10:ℚ) ^ ((a:ℤ) + 1) := by
    have hcast : ((a:ℤ)+1) = ((a+1 : ℕ) : ℤ) := by push_cast; ring
    rw [hcast, zpow_natCast]; exact_mod_cast hb2
  have hQ3 : (10:ℚ) ^ (b:ℤ) ≤ (d:ℚ) := by
    rw [zpow_natCast]; exact_mod_cast hb3
  have hQ4 : (d:ℚ) < (10:ℚ) ^ ((b:ℤ) + 1) := by
    have hcast : ((b:ℤ)+1) = ((b+1 : ℕ) : ℤ) := by push_cast; ring
    rw [hcast, zpow_natCast]; exact_mod_cast hb4
  have hupper : q < (10:ℚ) ^ ((a:ℤ) - b + 1) := by
    have step : q * (d:ℚ) < (10:ℚ) ^ ((a:ℤ) - b + 1) * (d:ℚ) := by
      rw [hqd]
      calc (n:ℚ) < (10:ℚ) ^ ((a:ℤ)+1) := hQ2
        _ = (10:ℚ) ^ ((a:ℤ) - b + 1) * (10:ℚ) ^ (b:ℤ) := by
            rw [← zpow_add₀ hz]; congr 1; ring
        _ ≤ (10:ℚ) ^ ((a:ℤ) - b + 1) * (d:ℚ) := by
            exact mul_le_mul_of_nonneg_left hQ3 (zpow_pos (by norm_num) _).le
    exact (mul_lt_mul_right hdq).mp step
  have hlower : (10:ℚ) ^ ((a:ℤ) - b - 1) < q := by
    have step : (10:ℚ) ^ ((a:ℤ) - b - 1) * (d:ℚ) < q * (d:ℚ) := by
      rw [hqd]
      calc (10:ℚ) ^ ((a:ℤ) - b - 1) * (d:ℚ)
          < (10:ℚ) ^ ((a:ℤ) - b - 1) * (10:ℚ) ^ ((b:ℤ)+1) := by
            exact mul_lt_mul_of_pos_left hQ4 (zpow_pos (by norm_num) _)
        _ = (10:ℚ) ^ (a:ℤ) := by rw [← zpow_add₀ hz]; congr 1; ring
        _ ≤ (n:ℚ) := hQ1
    exact (mul_lt_mul_right hdq).mp step
  rw [decExp]
  rw [← hn, ← hd, ← ha, ← hb]
  split
  · rename_i hbranch
    exact ⟨hbranch, hupper⟩
  · rename_i hbranch
    constructor
    · exact hlower.le
    · have hcast : (a:ℤ) - b - 1 + 1 = (a:ℤ) - b := by ring
      rw [hcast]
      exact not_le.mp hbranch

/-- The scaled value sits between `10^p` and `10^(p+1)`. -/
lemma sciScaled_bounds (p : ℕ) (q : ℚ) (hq : 0 < q) :
    (10:ℚ) ^ (p:ℤ) ≤ sciScaled p q ∧ sciScaled p q < (10:ℚ) ^ ((p:ℤ) + 1) := by
  obtain ⟨h1, h2⟩ := decExp_spec q hq
  have hz : (10:ℚ) ≠ 0 := by norm_num
  have hpow : (0:ℚ) < (10:ℚ) ^ ((p:ℤ) - decExp q) := zpow_pos (by norm_num) _
  constructor
  · have h1' := mul_le_mul_of_nonneg_right h1 hpow.le
    rw [← zpow_add₀ hz] at h1'
    have he : decExp q + ((p:ℤ) - decExp q) = (p:ℤ) := by ring
    rw [he] at h1'
    simpa only [sciScaled] using h1'
  · have h2' := mul_lt_mul_of_pos_right h2 hpow
    rw [← zpow_add₀ hz] at h2'
    have he : decExp q + 1 + ((p:ℤ) - decExp q) = (p:ℤ) + 1 := by ring
    rw [he] at h2'
    simpa only [sciScaled] using h2'

/-- The rounded mantissa has between `10^p` and `10^(p+1)` (inclusive, for
the carry case) as value. -/
lemma sciMantissa_bounds (p : ℕ) (q : ℚ) (hq : 0 < q) :
    10 ^ p ≤ sciMantissa p q ∧ sciMantissa p q ≤ 10 ^ (p + 1) := by
  obtain ⟨h1, h2⟩ := sciScaled_bounds p q hq
  rw [zpow_natCast] at h1
  have h2' : sciScaled p q < (10:ℚ) ^ (p+1) := by
    have hcast : ((p:ℤ)+1) = ((p+1 : ℕ) : ℤ) := by push_cast; ring
    rw [hcast, zpow_natCast] at h2
    exact h2
  have hfl : ((10:ℤ) ^ p) ≤ ⌊sciScaled p q + 1/2⌋ := by
    rw [Int.le_floor]
    push_cast
    linarith
  have hfu : ⌊sciScaled p q + 1/2⌋ < (10:ℤ) ^ (p+1) + 1 := by
    rw [Int.floor_lt]
    push_cast
    linarith
  constructor
  · have h0 : (0:ℤ) ≤ ⌊sciScaled p q + 1/2⌋ := le_trans (by positivity) hfl
    rw [sciMantissa, Int.le_toNat h0]
    push_cast
    exact hfl
  · rw [sciMantissa, Int.toNat_le]
    push_cast
    omega

/-- After the carry renormalisation the mantissa is strictly below
`10^(p+1)`, i.e. it has exactly `p + 1` digits. -/
lemma sciNormMantissa_bounds (p : ℕ) (q : ℚ) (hq : 0 < q) :
    10 ^ p ≤ sciNormMantissa p q ∧ sciNormMantissa p q < 10 ^ (p + 1) := by
  obtain ⟨h1, h2⟩ := sciMantissa_bounds p q hq
  rw [sciNormMantissa]
  split
  · exact ⟨le_refl _, Nat.pow_lt_pow_succ (by norm_num)⟩
  · rename_i hne
    exact ⟨h1, lt_of_le_of_ne h2 hne⟩

/-- The mantissa of any positive value printed with precision `p` has
exactly `p + 1` decimal digits. -/
lemma sciDigits_length (p : ℕ) (q : ℚ) (hq : 0 < q) :
    (sciDigits p q).length = p + 1 := by
  obtain ⟨h1, h2⟩ := sciNormMantissa_bounds p q hq
  have hpos : 0 < (10:ℕ) ^ p := pow_pos (by norm_num) p
  have hne : sciNormMantissa p q ≠ 0 := by omega
  rw [sciDigits, Nat.digits_len 10 _ (by norm_num) hne,
    Nat.log_eq_of_pow_le_of_lt_pow h1 h2]

lemma digitChar_isDigit (v : ℕ) (hv : v < 10) :
    (Nat.digitChar v).isDigit = true := by
  interval_cases v <;> rfl

/-- Claim C8 (amended): every value printed through the Python format
`.17e` — the averaged values in the rendered array block and the sample
values logged on add/remove — is rendered in scientific notation whose
mantissa consists of exactly 18 significant decimal digits (one before the
decimal point and 17 after it, so full round-trip precision), not 17 as
stated. -/
theorem printed_mantissa_digits (q : ℚ) (hq : 0 < q) :
    ∃ d rest, (sciDigits 17 q).reverse.map Nat.digitChar = d :: rest ∧
      fmt_e 17 q = String.mk [d] ++ "." ++ String.mk rest
          ++ "e" ++ expSuffix (sciExp 17 q) ∧
      (d :: rest).length = 18 ∧
      ∀ c ∈ d :: rest, c.isDigit = true := by
  have hlen : (sciDigits 17 q).length = 18 := sciDigits_length 17 q hq
  have hne : (sciDigits 17 q).reverse.map Nat.digitChar ≠ [] := by
    intro hcon
    apply_fun List.length at hcon
    simp [hlen] at hcon
  obtain ⟨d, rest, hd⟩ := List.exists_cons_of_ne_nil hne
  refine ⟨d, rest, hd, ?_, ?_, ?_⟩
  · unfold fmt_e
    rw [if_neg (ne_of_gt hq), if_neg (not_lt.mpr hq.le)]
    unfold fmtEPos
    rw [hd]
  · rw [← hd]
    simp [hlen]
  · intro c hc
    rw [← hd] at hc
    simp only [List.mem_map, List.mem_reverse] at hc
    obtain ⟨v, hv, rfl⟩ := hc
    exact digitChar_isDigit v (Nat.digits_lt_base (by norm_num) hv)

/-- Counterexample to claim C8 as stated: the mantissa printed for the
sample value `1/2` does not have 17 significant digits (it has 18: the
format `.17e` prints one digit before the point and 17 after it). -/
theorem printed_sig_digits_ne_17 :
    (sciDigits 17 ((1:ℚ)/2)).length ≠ 17 := by
  have h := sciDigits_length 17 ((1:ℚ)/2) (by norm_num)
  omega

/-- Witness for `printed_mantissa_digits` at the sample value `1/2`. -/
theorem printed_mantissa_digits_witness :
    (0:ℚ) < 1/2 ∧
    (∃ d rest,
      (sciDigits 17 ((1:ℚ)/2)).reverse.map Nat.digitChar = d :: rest ∧
      fmt_e 17 ((1:ℚ)/2) = String.mk [d] ++ "." ++ String.mk rest
          ++ "e" ++ expSuffix (sciExp 17 ((1:ℚ)/2)) ∧
      (d :: rest).length = 18 ∧
      ∀ c ∈ d :: rest, c.isDigit = true) :=
  ⟨by norm_num, printed_mantissa_digits ((1:ℚ)/2) (by norm_num)⟩

end CalibrateX
